import Mathlib

/-!
# Verification of the eventpp pool allocator and queue extensions

This file gives a shallow embedding of the slab pool allocator
(`include/eventpp/internal/poolallocator_i.h`), of the threading-policy
condition variables (`include/eventpp/eventpolicies.h`), and of the queue
drain operations exercised by `tests/unittest/test_queue_visitor.cpp`, and
proves the specification claims about them.

The pool code is concurrent; the embedding gives its sequential
(interleaving-free) semantics: each `allocate` / `deallocate` call runs
atomically, which is the semantics the functional-correctness and invariant
claims describe.  Machine addresses are abstracted: a slot inside the pool is
identified by the pair (slab id, slot index), and a pointer is either such a
slot address or a foreign address outside every slab.
-/

namespace Eventpp

/-- A slot address inside the pool: (slab id, slot index within the slab).
Slab ids name the slabs of the singly linked slab list; distinct slabs have
distinct ids, so distinct `Slot` values model distinct machine addresses. -/
abbrev Slot : Type := Nat × Nat

/-- A pointer value as seen by `NodePool::deallocate`: either an address that
falls inside slab `sid` at slot `idx` (valid when `sid` is a live slab and
`idx < SlabCapacity`), or a foreign address outside every slab (e.g. memory
obtained from `::operator new` before the pool existed, or from the
multi-element fallback path). -/
inductive Ptr : Type where
  | slot : Nat → Nat → Ptr
  | foreign : Nat → Ptr
deriving DecidableEq, Repr

/-- State of `NodePool<T, SlabCapacity>` (poolallocator_i.h:211-213):
`slab_head` is the singly linked list of slabs rooted at `slab_head_`
(most recently grown slab first), represented by slab ids; `free_head` is the
lock-free free stack rooted at `free_head_`, head of the list = top of the
stack; `nextSlabId` is the bookkeeping device that hands each slab allocated
from the system a fresh id (modelling that `::operator new` returns an
address distinct from every live slab). -/
structure PoolState : Type where
  slab_head : List Nat
  free_head : List Slot
  nextSlabId : Nat
deriving DecidableEq, Repr

namespace NodePool

variable (cap : Nat)

/-- The loop body of `NodePool::is_in_pool` (poolallocator_i.h:199-209):
walk the slab list and test whether the address falls inside the current
slab's data array (`raw >= s->data && raw < s->data + slab_data_size`
becomes: same slab id and slot index below `SlabCapacity`). -/
def scanSlabs : List Nat → Nat → Nat → Bool
  | [], _, _ => false
  | sid' :: rest, sid, idx =>
      if sid' = sid ∧ idx < cap then true else scanSlabs rest sid idx

/-- `NodePool::is_in_pool` (poolallocator_i.h:199-209): linear scan of the
slab list; a foreign address lies in no slab. -/
def is_in_pool (s : PoolState) : Ptr → Bool
  | .slot sid idx => scanSlabs cap s.slab_head sid idx
  | .foreign _ => false

/-- The publishing loop of `NodePool::grow` (poolallocator_i.h:185-194):
CAS-push slot `i` of the new slab onto the free stack for
`i = 0, …, SlabCapacity-1`.  After the loop the top of the stack is slot
`SlabCapacity-1` of the new slab. -/
def publishSlots (sid : Nat) (fs : List Slot) : List Slot :=
  (List.range cap).foldl (fun acc i => (sid, i) :: acc) fs

/-- `NodePool::grow` (poolallocator_i.h:172-195): request one new slab from
the system allocator; on out-of-memory (`oom = true`, `::operator new`
returned null) return with the pool untouched; otherwise link the slab at
the slab head and publish each of its `SlabCapacity` slots onto the free
stack. -/
def grow (oom : Bool) (s : PoolState) : PoolState :=
  if oom then s
  else
    { slab_head := s.nextSlabId :: s.slab_head
      free_head := publishSlots cap s.nextSlabId s.free_head
      nextSlabId := s.nextSlabId + 1 }

/-- `NodePool::allocate` (poolallocator_i.h:85-110), sequential semantics:
pop the head of the free stack; if the head is null, take the grow lock,
recheck (sequentially: still null), `grow()`, reload the head, release the
lock; if the head is still null return null, else retry the pop (which now
succeeds).  `oom` tells whether `::operator new` inside `grow` would fail. -/
def allocate (oom : Bool) (s : PoolState) : Option Slot × PoolState :=
  match s.free_head with
  | h :: t => (some h, { s with free_head := t })
  | [] =>
      let s2 := grow cap oom s
      match s2.free_head with
      | h :: t => (some h, { s2 with free_head := t })
      | [] => (none, s2)

/-- `NodePool::deallocate` (poolallocator_i.h:112-128): if the pointer lies
within any slab (`is_in_pool`), CAS-push it onto the free stack (result flag
`true`); otherwise release it via `::operator delete` (result flag `false`,
pool untouched).  `is_in_pool` is false on every foreign address, so that
branch always takes the system-allocator path. -/
def deallocate (s : PoolState) (p : Ptr) : PoolState × Bool :=
  match p with
  | .slot sid idx =>
      if is_in_pool cap s (.slot sid idx) then
        ({ s with free_head := (sid, idx) :: s.free_head }, true)
      else (s, false)
  | .foreign _ => (s, false)

/-- The `NodePool` constructor (poolallocator_i.h:152-155): start with no
slab and an empty free stack, then `grow()` once (the initial slab
allocation is assumed to succeed, as the singleton could not exist
otherwise). -/
def initState : PoolState :=
  grow cap false { slab_head := [], free_head := [], nextSlabId := 0 }

end NodePool

/-! ## Traces of pool operations

To state the pool invariants we run sequences of `allocate` / `deallocate`
calls from the freshly constructed pool and carry ghost observation data:
the slots currently loaned to callers and every slot ever returned by
`allocate`.  The ghost data records calls; it does not influence the pool. -/

/-- One client call on the pool: an `allocate` (with the out-of-memory oracle
for a growth attempt it may make), or a `deallocate` of some pointer. -/
inductive Op : Type where
  | alloc : Bool → Op
  | dealloc : Ptr → Op
deriving DecidableEq, Repr

/-- Ghost observation data for a trace: `loaned` are the slots handed to
callers by `allocate` and not yet passed back to `deallocate`; `returned`
records every non-null slot ever returned by `allocate`. -/
structure Ghost : Type where
  loaned : List Slot
  returned : List Slot
deriving DecidableEq, Repr

/-- Run one client call on pool state plus ghost data. -/
def step (cap : Nat) (sg : PoolState × Ghost) : Op → PoolState × Ghost
  | .alloc oom =>
      match NodePool.allocate cap oom sg.1 with
      | (some p, s') => (s', ⟨p :: sg.2.loaned, p :: sg.2.returned⟩)
      | (none, s') => (s', sg.2)
  | .dealloc p =>
      let r := NodePool.deallocate cap sg.1 p
      match p, r.2 with
      | .slot sid idx, true => (r.1, ⟨sg.2.loaned.erase (sid, idx), sg.2.returned⟩)
      | _, _ => (r.1, sg.2)

/-- Run a sequence of client calls from the freshly constructed pool. -/
def runOps (cap : Nat) (ops : List Op) : PoolState × Ghost :=
  ops.foldl (step cap) (NodePool.initState cap, ⟨[], []⟩)

/-- A trace respects the allocator contract when every `deallocate` of a
slab-slot address passes a pointer currently loaned by `allocate` (foreign
pointers may be passed freely: the pool forwards them to the system
allocator). -/
def validOps (cap : Nat) (sg : PoolState × Ghost) : List Op → Bool
  | [] => true
  | op :: rest =>
      (match op with
       | .alloc _ => true
       | .dealloc (.slot sid idx) => decide ((sid, idx) ∈ sg.2.loaned)
       | .dealloc (.foreign _) => true)
      && validOps cap (step cap sg op) rest

/-- A slot address lies inside a slab currently reachable from the slab
head. -/
def slotInSlabs (cap : Nat) (s : PoolState) (p : Slot) : Prop :=
  p.1 ∈ s.slab_head ∧ p.2 < cap

instance (cap : Nat) (s : PoolState) (p : Slot) : Decidable (slotInSlabs cap s p) :=
  inferInstanceAs (Decidable (p.1 ∈ s.slab_head ∧ p.2 < cap))

/-- The memory-membership invariant of the pool: every slot on the free
stack, every loaned slot, and every slot ever returned by `allocate` lies in
a slab reachable from the slab head, and every live slab id is below the
fresh-id counter. -/
structure MemInv (cap : Nat) (s : PoolState) (g : Ghost) : Prop where
  free_in_slabs : ∀ p ∈ s.free_head, slotInSlabs cap s p
  loaned_in_slabs : ∀ p ∈ g.loaned, slotInSlabs cap s p
  returned_in_slabs : ∀ p ∈ g.returned, slotInSlabs cap s p
  ids_lt : ∀ sid ∈ s.slab_head, sid < s.nextSlabId

/-- The uniqueness invariant of the free stack: no slot appears twice on the
free stack, no slot is loaned twice, and no slot is simultaneously on the
free stack and loaned out. -/
structure UniqInv (s : PoolState) (g : Ghost) : Prop where
  free_nodup : s.free_head.Nodup
  loaned_nodup : g.loaned.Nodup
  free_disjoint_loaned : ∀ p ∈ s.free_head, p ∉ g.loaned

/-! ## PoolAllocator -/

/-- The error kind thrown by `PoolAllocator::allocate`
(poolallocator_i.h:241, `throw std::bad_alloc()`), called
`allocation_failure` by the specification's error taxonomy. -/
inductive AllocError : Type where
  | allocation_failure : AllocError
deriving DecidableEq, Repr

/-- `PoolAllocator::allocate` (poolallocator_i.h:237-247): for `n == 1`
forward to the per-type `NodePool` singleton and throw on a null result;
for `n != 1` fall back to `::operator new`, modelled as returning the
foreign address `sysAddr` (the claims only concern `n == 1`). -/
def PoolAllocator.allocate (cap n : Nat) (oom : Bool) (sysAddr : Nat)
    (s : PoolState) : Except AllocError Ptr × PoolState :=
  if n = 1 then
    match NodePool.allocate cap oom s with
    | (none, s') => (.error .allocation_failure, s')
    | (some h, s') => (.ok (.slot h.1 h.2), s')
  else (.ok (.foreign sysAddr), s)

/-- An instance of the stateless `PoolAllocator<T, Capacity>` class
(poolallocator_i.h:222-262).  The class has no data members; the `id` field
models object identity only, so that distinct instances can be quantified
over. -/
structure PoolAllocatorInst : Type where
  id : Nat
deriving DecidableEq, Repr

/-- `operator==` on `PoolAllocator` (poolallocator_i.h:264-267): always
true, since all instances share the static per-type pool. -/
def poolAllocatorEq (_ _ : PoolAllocatorInst) : Bool := true

/-- `operator!=` on `PoolAllocator` (poolallocator_i.h:269-272): always
false. -/
def poolAllocatorNe (_ _ : PoolAllocatorInst) : Bool := false

/-- Modelled from the spec: the C++14 allocator-equality rule for
`std::list::splice` — a container may splice nodes from another container
exactly when the two allocators compare equal. -/
def spliceAllowed (a b : PoolAllocatorInst) : Bool := poolAllocatorEq a b

/-! ## Queue (pending list, drain, visitor dispatch)

The `EventQueue` implementation (`eventqueue.h`) is not part of the sources
under review; only its tests and callers are.  The queue operations the
claims need are therefore modelled from the spec (§2 data flow, §4.5):
`enqueue` stores `(event, args)` in a node appended at the pending tail; a
drain splices the pending list out and walks it in order, invoking either
the dispatcher's listeners for each node's event (`process`) or the
visitor (`processQueueWith`). -/

/-- Modelled from the spec: the queue's pending list, producer order head to
tail (`eventqueue.h` is not under the reviewed sources). -/
structure Queue (E A : Type) : Type where
  pending : List (E × A)
deriving DecidableEq, Repr

/-- Modelled from the spec: the queue with empty pending list. -/
def Queue.empty (E A : Type) : Queue E A := ⟨[]⟩

/-- Modelled from the spec: `Queue::enqueue(event, args…)` links the new
node at the pending tail (`eventqueue.h` is not under the reviewed
sources). -/
def Queue.enqueue (q : Queue E A) (e : E) (a : A) : Queue E A :=
  ⟨q.pending ++ [(e, a)]⟩

/-- A sequence of same-thread `enqueue` calls, in program order. -/
def Queue.enqueueAll (q : Queue E A) : List (E × A) → Queue E A
  | [] => q
  | (e, a) :: rest => Queue.enqueueAll (q.enqueue e a) rest

/-- Modelled from the spec: the fresh-node path of `Queue::enqueue`
(`eventqueue.h` is not under the reviewed sources) — when the freelist is
empty, a node is constructed through the configured allocator
(`PoolAllocator::allocate` for one element); an allocation error is
surfaced unchanged to the caller of `enqueue`, and only on success is the
node linked at the pending tail. -/
def Queue.enqueueAlloc (cap : Nat) (oom : Bool) (pool : PoolState)
    (q : Queue E A) (e : E) (a : A) : Except AllocError (Queue E A) × PoolState :=
  match PoolAllocator.allocate cap 1 oom 0 pool with
  | (.error err, pool') => (.error err, pool')
  | (.ok _, pool') => (.ok ⟨q.pending ++ [(e, a)]⟩, pool')

/-- Modelled from the spec: the observation sequence of a `process()` drain.
`ls e` gives, in registration order, the observation each listener
registered on event `e` produces from the stored arguments; the drain walks
the pending list in order and invokes the listeners of each node's event. -/
def processObs (ls : E → List (A → O)) : List (E × A) → List O
  | [] => []
  | (e, a) :: rest => (ls e).map (fun f => f a) ++ processObs ls rest

/-- Modelled from the spec: the observation sequence of a
`processQueueWith(visitor)` drain — the visitor is called once per drained
node with `(event, args…)`, bypassing the dispatcher index. -/
def processQueueWithObs (v : E → A → O) (q : Queue E A) : List O :=
  q.pending.map (fun p => v p.1 p.2)

/-! ## waitFor and the threading policies -/

/-- The threading policies shipped in `eventpolicies.h`. -/
inductive ThreadingPolicy : Type where
  | single
  | multiple
deriving DecidableEq, Repr

/-- `SingleThreading::ConditionVariable::wait_for`
(eventpolicies.h:206-213): ignores the lock, the duration and the
predicate, and returns `true` unconditionally. -/
def singleThreadingWaitFor (_pred : Bool) : Bool := true

/-- Modelled from the spec: `MultipleThreading::ConditionVariable` is
`std::condition_variable`, whose predicated `wait_for` returns whether the
predicate held on exit — with abstract time, whether the queue became
non-empty before the deadline. -/
def multipleThreadingWaitFor (nonEmptyBeforeDeadline : Bool) : Bool :=
  nonEmptyBeforeDeadline

/-- Modelled from the spec: `Queue::waitFor(duration)` (`eventqueue.h` is
not under the reviewed sources) — spin, yield, then a predicated
`ConditionVariable::wait_for` on queue non-emptiness, whose result is
returned.  All three stages are summarised by the abstract-time flag
`nonEmptyBeforeDeadline`: if the queue became non-empty during spin or
yield, both the early stages and `wait_for` report success, so the result
is that of the policy's `wait_for`. -/
def queueWaitFor (p : ThreadingPolicy) (nonEmptyBeforeDeadline : Bool) : Bool :=
  match p with
  | .single => singleThreadingWaitFor nonEmptyBeforeDeadline
  | .multiple => multipleThreadingWaitFor nonEmptyBeforeDeadline

/-! ## Helper lemmas -/

theorem foldl_cons_eq {α β : Type} (f : α → β) (l : List α) (fs : List β) :
    l.foldl (fun acc i => f i :: acc) fs = l.reverse.map f ++ fs := by
  induction l generalizing fs with
  | nil => simp
  | cons a l ih => simp [ih]

theorem publishSlots_eq (cap sid : Nat) (fs : List Slot) :
    NodePool.publishSlots cap sid fs =
      (List.range cap).reverse.map (fun i => (sid, i)) ++ fs :=
  foldl_cons_eq _ _ _

theorem mem_publishSlots (cap sid : Nat) (fs : List Slot) (p : Slot) :
    p ∈ NodePool.publishSlots cap sid fs ↔ (p.1 = sid ∧ p.2 < cap) ∨ p ∈ fs := by
  cases p with
  | mk p1 p2 =>
      rw [publishSlots_eq]
      simp only [List.mem_append, List.mem_map, List.mem_reverse, List.mem_range,
        Prod.mk.injEq]
      constructor
      · rintro (⟨i, hi, rfl, rfl⟩ | h)
        · exact Or.inl ⟨rfl, hi⟩
        · exact Or.inr h
      · rintro (⟨rfl, hlt⟩ | h)
        · exact Or.inl ⟨p2, hlt, rfl, rfl⟩
        · exact Or.inr h

theorem nodup_publishSlots_nil (cap sid : Nat) :
    (NodePool.publishSlots cap sid []).Nodup := by
  rw [publishSlots_eq]
  refine List.Nodup.append ?_ List.nodup_nil (by simp)
  exact List.Nodup.map (fun a b h => by simpa using congrArg Prod.snd h)
    (List.nodup_reverse.mpr (List.nodup_range cap))

theorem scanSlabs_true_iff (cap : Nat) (l : List Nat) (sid idx : Nat) :
    NodePool.scanSlabs cap l sid idx = true ↔ sid ∈ l ∧ idx < cap := by
  induction l with
  | nil => simp [NodePool.scanSlabs]
  | cons a l ih =>
      simp only [NodePool.scanSlabs]
      split_ifs with h
      · obtain ⟨rfl, hlt⟩ := h
        simp [hlt]
      · rw [ih]
        constructor
        · rintro ⟨hm, hlt⟩
          exact ⟨List.mem_cons_of_mem a hm, hlt⟩
        · rintro ⟨hm, hlt⟩
          rcases List.mem_cons.mp hm with rfl | hm'
          · exact absurd ⟨rfl, hlt⟩ h
          · exact ⟨hm', hlt⟩

theorem is_in_pool_slot_iff (cap : Nat) (s : PoolState) (sid idx : Nat) :
    NodePool.is_in_pool cap s (.slot sid idx) = true ↔
      sid ∈ s.slab_head ∧ idx < cap :=
  scanSlabs_true_iff cap s.slab_head sid idx

theorem allocate_pop (cap : Nat) (oom : Bool) (s : PoolState) (h : Slot)
    (t : List Slot) (hf : s.free_head = h :: t) :
    NodePool.allocate cap oom s = (some h, { s with free_head := t }) := by
  simp [NodePool.allocate, hf]

theorem allocate_empty_oom (cap : Nat) (s : PoolState) (hf : s.free_head = []) :
    NodePool.allocate cap true s = (none, s) := by
  simp [NodePool.allocate, hf, NodePool.grow]

theorem allocate_empty_grow (cap : Nat) (s : PoolState) (hf : s.free_head = []) :
    NodePool.allocate (cap + 1) false s =
      (some (s.nextSlabId, cap),
       { slab_head := s.nextSlabId :: s.slab_head,
         free_head := (List.range cap).reverse.map (fun i => (s.nextSlabId, i)),
         nextSlabId := s.nextSlabId + 1 }) := by
  simp [NodePool.allocate, hf, NodePool.grow, publishSlots_eq, List.range_succ]

theorem allocate_empty_grow_cap_zero (s : PoolState) (hf : s.free_head = []) :
    NodePool.allocate 0 false s =
      (none, { slab_head := s.nextSlabId :: s.slab_head, free_head := [],
               nextSlabId := s.nextSlabId + 1 }) := by
  simp [NodePool.allocate, hf, NodePool.grow, NodePool.publishSlots]

theorem deallocate_in_pool (cap : Nat) (s : PoolState) (sid idx : Nat)
    (h : NodePool.is_in_pool cap s (.slot sid idx) = true) :
    NodePool.deallocate cap s (.slot sid idx) =
      ({ s with free_head := (sid, idx) :: s.free_head }, true) := by
  simp [NodePool.deallocate, h]

theorem step_alloc_some (cap : Nat) (oom : Bool) (sg : PoolState × Ghost)
    (p : Slot) (s' : PoolState)
    (h : NodePool.allocate cap oom sg.1 = (some p, s')) :
    step cap sg (.alloc oom) = (s', ⟨p :: sg.2.loaned, p :: sg.2.returned⟩) := by
  simp [step, h]

theorem step_alloc_none (cap : Nat) (oom : Bool) (sg : PoolState × Ghost)
    (s' : PoolState) (h : NodePool.allocate cap oom sg.1 = (none, s')) :
    step cap sg (.alloc oom) = (s', sg.2) := by
  simp [step, h]

theorem step_dealloc_slot_true (cap : Nat) (sg : PoolState × Ghost)
    (sid idx : Nat) (s' : PoolState)
    (h : NodePool.deallocate cap sg.1 (.slot sid idx) = (s', true)) :
    step cap sg (.dealloc (.slot sid idx)) =
      (s', ⟨sg.2.loaned.erase (sid, idx), sg.2.returned⟩) := by
  simp [step, h]

theorem step_dealloc_foreign (cap : Nat) (sg : PoolState × Ghost) (a : Nat) :
    step cap sg (.dealloc (.foreign a)) = sg := by
  simp [step, NodePool.deallocate]

/-! ## Claim theorems: the slab pool -/

/-- C1: `NodePool::allocate` pops the head of the free stack when it is
non-empty and returns that slot; when the free stack is empty it grows the
pool by one slab linked at the slab head, publishes that slab's
`SlabCapacity` slots onto the free stack, and retries the pop, which now
returns the last-published slot (slot `SlabCapacity - 1` of the new slab)
and leaves the remaining `SlabCapacity - 1` new slots on the free stack. -/
theorem nodePool_allocate_spec (cap : Nat) (s : PoolState) :
    (∀ (oom : Bool) (h : Slot) (t : List Slot), s.free_head = h :: t →
      NodePool.allocate cap oom s = (some h, { s with free_head := t })) ∧
    (s.free_head = [] → 0 < cap →
      NodePool.allocate cap false s =
        (some (s.nextSlabId, cap - 1),
         { slab_head := s.nextSlabId :: s.slab_head,
           free_head := (List.range (cap - 1)).reverse.map (fun i => (s.nextSlabId, i)),
           nextSlabId := s.nextSlabId + 1 })) := by
  constructor
  · intro oom h t hft
    simp [NodePool.allocate, hft]
  · intro hfe hcap
    obtain ⟨k, rfl⟩ : ∃ k, cap = k + 1 := ⟨cap - 1, (Nat.succ_pred_eq_of_pos hcap).symm⟩
    simp [NodePool.allocate, hfe, NodePool.grow, publishSlots_eq, List.range_succ]

theorem nodePool_allocate_spec_witness :
    NodePool.allocate 2 false (NodePool.initState 2) =
      (some (0, 1), { slab_head := [0], free_head := [(0, 0)], nextSlabId := 1 }) ∧
    NodePool.allocate 2 false ⟨[0], [], 1⟩ =
      (some (1, 1), { slab_head := [1, 0], free_head := [(1, 0)], nextSlabId := 2 }) :=
  ⟨((nodePool_allocate_spec 2 (NodePool.initState 2)).1 false (0, 1) [(0, 0)]
      (by decide)).trans (by decide),
   ((nodePool_allocate_spec 2 ⟨[0], [], 1⟩).2 rfl (by decide)).trans (by decide)⟩

/-- C4: for every pointer passed to `NodePool::deallocate`, if it lies
within a slab of the pool (as decided by the `is_in_pool` linear scan) it is
pushed onto the free stack; otherwise the pool is untouched and the pointer
is released via the system allocator (result flag `false`). -/
theorem nodePool_deallocate_spec (cap : Nat) (s : PoolState) :
    (∀ sid idx, NodePool.is_in_pool cap s (.slot sid idx) = true →
      NodePool.deallocate cap s (.slot sid idx) =
        ({ s with free_head := (sid, idx) :: s.free_head }, true)) ∧
    (∀ p, NodePool.is_in_pool cap s p = false →
      NodePool.deallocate cap s p = (s, false)) := by
  constructor
  · intro sid idx h
    simp [NodePool.deallocate, h]
  · intro p h
    cases p with
    | slot sid idx => simp [NodePool.deallocate, h]
    | foreign a => simp [NodePool.deallocate]

theorem nodePool_deallocate_spec_witness :
    NodePool.deallocate 2 ⟨[0], [], 1⟩ (.slot 0 1) = (⟨[0], [(0, 1)], 1⟩, true) ∧
    NodePool.deallocate 2 ⟨[0], [], 1⟩ (.foreign 7) = (⟨[0], [], 1⟩, false) :=
  ⟨((nodePool_deallocate_spec 2 ⟨[0], [], 1⟩).1 0 1 (by decide)).trans (by decide),
   (nodePool_deallocate_spec 2 ⟨[0], [], 1⟩).2 (.foreign 7) (by decide)⟩

/-- C5: `operator==` on `PoolAllocator` returns `true` and `operator!=`
returns `false` for every pair of instances of a given element type, so the
allocator-equality rule for splicing nodes between containers is always
satisfied. -/
theorem poolAllocator_instances_equal (a b : PoolAllocatorInst) :
    poolAllocatorEq a b = true ∧ poolAllocatorNe a b = false ∧
      spliceAllowed a b = true :=
  ⟨rfl, rfl, rfl⟩

/-- C6: when the pool is exhausted (empty free stack) and slab growth fails
for out of memory, `NodePool::allocate` returns the null sentinel leaving
the pool unchanged, `PoolAllocator::allocate` then fails with
`allocation_failure` (`std::bad_alloc`), and the failure is surfaced
unchanged to the caller of `enqueue`. -/
theorem allocation_failure_surfaces (cap : Nat) (s : PoolState)
    (q : Queue Nat Nat) (e a : Nat) (hex : s.free_head = []) :
    NodePool.allocate cap true s = (none, s) ∧
    PoolAllocator.allocate cap 1 true 0 s = (.error .allocation_failure, s) ∧
    Queue.enqueueAlloc cap true s q e a = (.error .allocation_failure, s) := by
  have h1 : NodePool.allocate cap true s = (none, s) := by
    simp [NodePool.allocate, hex, NodePool.grow]
  refine ⟨h1, ?_, ?_⟩
  · simp [PoolAllocator.allocate, h1]
  · simp [Queue.enqueueAlloc, PoolAllocator.allocate, h1]

theorem allocation_failure_surfaces_witness :
    NodePool.allocate 2 true ⟨[0], [], 1⟩ = (none, ⟨[0], [], 1⟩) ∧
    PoolAllocator.allocate 2 1 true 0 ⟨[0], [], 1⟩ =
      (.error .allocation_failure, ⟨[0], [], 1⟩) ∧
    Queue.enqueueAlloc 2 true ⟨[0], [], 1⟩ (Queue.empty Nat Nat) 42 7 =
      (.error .allocation_failure, ⟨[0], [], 1⟩) :=
  allocation_failure_surfaces 2 ⟨[0], [], 1⟩ (Queue.empty Nat Nat) 42 7 rfl

/-- C10: when the system allocation inside `NodePool::grow` fails, the pool
state is left completely unchanged (no slab linked, free stack untouched),
and the pending `allocate` call on an exhausted pool returns null with the
state unchanged: allocation failure is atomic with respect to pool state. -/
theorem grow_oom_leaves_pool_unchanged (cap : Nat) (s : PoolState) :
    NodePool.grow cap true s = s ∧
    (s.free_head = [] → NodePool.allocate cap true s = (none, s)) := by
  refine ⟨rfl, ?_⟩
  intro hfe
  simp [NodePool.allocate, hfe, NodePool.grow]

theorem grow_oom_leaves_pool_unchanged_witness :
    NodePool.grow 2 true ⟨[0], [], 1⟩ = ⟨[0], [], 1⟩ ∧
    NodePool.allocate 2 true ⟨[0], [], 1⟩ = (none, ⟨[0], [], 1⟩) :=
  ⟨(grow_oom_leaves_pool_unchanged 2 ⟨[0], [], 1⟩).1,
   (grow_oom_leaves_pool_unchanged 2 ⟨[0], [], 1⟩).2 rfl⟩

/-- C9 counterexample: under the `SingleThreading` policy, whose
`ConditionVariable::wait_for` returns `true` unconditionally, `waitFor` on a
queue that never becomes non-empty before the deadline does not return
`false` — contradicting the claim that for every threading policy a timeout
is reported as `false`. -/
theorem queueWaitFor_single_timeout_counterexample :
    ¬ (queueWaitFor ThreadingPolicy.single false = false) := by decide

/-- C9 amended: under `MultipleThreading`, `waitFor` returns `true` exactly
when the queue became non-empty before the deadline and `false` on timeout
(as a boolean, never an error); under `SingleThreading` the no-op condition
variable's `wait_for` returns `true` unconditionally, so `waitFor` returns
`true` even when the queue stays empty past the deadline. -/
theorem queueWaitFor_amended :
    (∀ b, queueWaitFor ThreadingPolicy.multiple b = b) ∧
    (∀ b, queueWaitFor ThreadingPolicy.single b = true) :=
  ⟨fun _ => rfl, fun _ => rfl⟩

/-! ## Claim theorems: the queue drain -/

theorem processObs_eq_map {E A O : Type} (ls : E → List (A → O))
    (v : E → A → O) (l : List (E × A))
    (hls : ∀ p ∈ l, (ls p.1).map (fun f => f p.2) = [v p.1 p.2]) :
    processObs ls l = l.map (fun p => v p.1 p.2) := by
  induction l with
  | nil => rfl
  | cons p rest ih =>
      obtain ⟨e, a⟩ := p
      simp only [processObs, List.map_cons]
      rw [hls (e, a) (List.mem_cons_self _ _),
        ih (fun p hp => hls p (List.mem_cons_of_mem _ hp))]
      rfl

/-- C7: a `processQueueWith(visitor)` drain observes exactly the same
`(event, args…)` sequence as a dispatcher-based `process()` drain in which
each enqueued event has exactly one registered listener recording the same
observation as the visitor (the test scenario registers one listener per
event key 1, 2, 3). -/
theorem processQueueWith_process_parity {E A O : Type} (ls : E → List (A → O))
    (v : E → A → O) (q : Queue E A)
    (hls : ∀ p ∈ q.pending, (ls p.1).map (fun f => f p.2) = [v p.1 p.2]) :
    processObs ls q.pending = processQueueWithObs v q :=
  processObs_eq_map ls v q.pending hls

theorem processQueueWith_process_parity_witness :
    (∀ p ∈ (⟨[(1, (10, "a")), (2, (20, "b")), (3, (30, "c"))]⟩ :
        Queue Nat (Nat × String)).pending,
      (((fun e => [fun (a : Nat × String) => (e, a.1, a.2)]) p.1).map
        (fun f => f p.2)) = [(fun e (a : Nat × String) => (e, a.1, a.2)) p.1 p.2]) ∧
    processObs (fun e => [fun (a : Nat × String) => (e, a.1, a.2)])
        (⟨[(1, (10, "a")), (2, (20, "b")), (3, (30, "c"))]⟩ :
          Queue Nat (Nat × String)).pending =
      processQueueWithObs (fun e (a : Nat × String) => (e, a.1, a.2))
        (⟨[(1, (10, "a")), (2, (20, "b")), (3, (30, "c"))]⟩ :
          Queue Nat (Nat × String)) :=
  ⟨fun _ _ => rfl,
   processQueueWith_process_parity _ _ _ (fun _ _ => rfl)⟩

theorem enqueueAll_pending {E A : Type} (q : Queue E A) (xs : List (E × A)) :
    (Queue.enqueueAll q xs).pending = q.pending ++ xs := by
  induction xs generalizing q with
  | nil => simp [Queue.enqueueAll]
  | cons p rest ih =>
      obtain ⟨e, a⟩ := p
      simp [Queue.enqueueAll, Queue.enqueue, ih]

/-- C8: events enqueued by same-thread `enqueue` calls are drained in
enqueue order: after any sequence of enqueues on an empty queue the pending
list is exactly the enqueue sequence, `processQueueWith` presents the stored
events to the visitor in that order, `process` presents them to the
listeners in that order, and in particular enqueuing `(10), (20), (30),
(40)` yields the observation sequence `[10, 20, 30, 40]`. -/
theorem enqueue_order_preserved {E A O : Type} (v : E → A → O)
    (ls : E → List (A → O)) (xs : List (E × A)) :
    (Queue.enqueueAll (Queue.empty E A) xs).pending = xs ∧
    processQueueWithObs v (Queue.enqueueAll (Queue.empty E A) xs) =
      xs.map (fun p => v p.1 p.2) ∧
    processObs ls (Queue.enqueueAll (Queue.empty E A) xs).pending =
      processObs ls xs ∧
    processQueueWithObs (fun e (_ : Unit) => e)
      (Queue.enqueueAll (Queue.empty Nat Unit)
        [(10, ()), (20, ()), (30, ()), (40, ())]) = [10, 20, 30, 40] := by
  have hp : (Queue.enqueueAll (Queue.empty E A) xs).pending = xs := by
    simpa [Queue.empty] using enqueueAll_pending (Queue.empty E A) xs
  exact ⟨hp, by simp [processQueueWithObs, hp], by rw [hp], rfl⟩

/-! ## The pool invariants along traces -/

theorem memInv_step (cap : Nat) (s : PoolState) (g : Ghost) (op : Op)
    (H : MemInv cap s g) :
    MemInv cap (step cap (s, g) op).1 (step cap (s, g) op).2 := by
  obtain ⟨Hfree, Hloaned, Hreturned, Hids⟩ := H
  cases op with
  | alloc oom =>
      cases hf : s.free_head with
      | cons h t =>
          rw [step_alloc_some cap oom (s, g) h { s with free_head := t }
            (allocate_pop cap oom s h t hf)]
          have hmemh : h ∈ s.free_head := by
            rw [hf]; exact List.mem_cons_self h t
          refine ⟨?_, ?_, ?_, Hids⟩
          · intro p hp
            refine Hfree p ?_
            rw [hf]; exact List.mem_cons_of_mem h hp
          · intro p hp
            rcases List.mem_cons.mp hp with rfl | hp'
            · exact Hfree p hmemh
            · exact Hloaned p hp'
          · intro p hp
            rcases List.mem_cons.mp hp with rfl | hp'
            · exact Hfree p hmemh
            · exact Hreturned p hp'
      | nil =>
          cases oom with
          | true =>
              rw [step_alloc_none cap true (s, g) s (allocate_empty_oom cap s hf)]
              exact ⟨Hfree, Hloaned, Hreturned, Hids⟩
          | false =>
              cases cap with
              | zero =>
                  rw [step_alloc_none 0 false (s, g) _
                    (allocate_empty_grow_cap_zero s hf)]
                  refine ⟨by simp, ?_, ?_, ?_⟩
                  · intro p hp
                    obtain ⟨h1, h2⟩ := Hloaned p hp
                    exact ⟨List.mem_cons_of_mem _ h1, h2⟩
                  · intro p hp
                    obtain ⟨h1, h2⟩ := Hreturned p hp
                    exact ⟨List.mem_cons_of_mem _ h1, h2⟩
                  · intro sid hsid
                    rcases List.mem_cons.mp hsid with rfl | hs'
                    · exact Nat.lt_succ_self _
                    · exact Nat.lt_succ_of_lt (Hids sid hs')
              | succ k =>
                  rw [step_alloc_some (k + 1) false (s, g) (s.nextSlabId, k) _
                    (allocate_empty_grow k s hf)]
                  refine ⟨?_, ?_, ?_, ?_⟩
                  · intro p hp
                    simp only [List.mem_map, List.mem_reverse, List.mem_range] at hp
                    obtain ⟨i, hi, rfl⟩ := hp
                    exact ⟨List.mem_cons_self _ _, Nat.lt_succ_of_lt hi⟩
                  · intro p hp
                    rcases List.mem_cons.mp hp with rfl | hp'
                    · exact ⟨List.mem_cons_self _ _, Nat.lt_succ_self k⟩
                    · obtain ⟨h1, h2⟩ := Hloaned p hp'
                      exact ⟨List.mem_cons_of_mem _ h1, h2⟩
                  · intro p hp
                    rcases List.mem_cons.mp hp with rfl | hp'
                    · exact ⟨List.mem_cons_self _ _, Nat.lt_succ_self k⟩
                    · obtain ⟨h1, h2⟩ := Hreturned p hp'
                      exact ⟨List.mem_cons_of_mem _ h1, h2⟩
                  · intro sid hsid
                    rcases List.mem_cons.mp hsid with rfl | hs'
                    · exact Nat.lt_succ_self _
                    · exact Nat.lt_succ_of_lt (Hids sid hs')
  | dealloc p =>
      cases p with
      | foreign a =>
          rw [step_dealloc_foreign]
          exact ⟨Hfree, Hloaned, Hreturned, Hids⟩
      | slot sid idx =>
          cases hin : NodePool.is_in_pool cap s (.slot sid idx) with
          | false =>
              have hd : NodePool.deallocate cap s (.slot sid idx) = (s, false) := by
                simp [NodePool.deallocate, hin]
              have hstep : step cap (s, g) (.dealloc (.slot sid idx)) = (s, g) := by
                simp [step, hd]
              rw [hstep]
              exact ⟨Hfree, Hloaned, Hreturned, Hids⟩
          | true =>
              rw [step_dealloc_slot_true cap (s, g) sid idx _
                (deallocate_in_pool cap s sid idx hin)]
              obtain ⟨hmem, hlt⟩ := (is_in_pool_slot_iff cap s sid idx).mp hin
              refine ⟨?_, ?_, Hreturned, Hids⟩
              · intro p hp
                rcases List.mem_cons.mp hp with rfl | hp'
                · exact ⟨hmem, hlt⟩
                · exact Hfree p hp'
              · intro p hp
                exact Hloaned p (List.mem_of_mem_erase hp)

theorem memInv_runOps_from (cap : Nat) (ops : List Op) (sg : PoolState × Ghost)
    (H : MemInv cap sg.1 sg.2) :
    MemInv cap (ops.foldl (step cap) sg).1 (ops.foldl (step cap) sg).2 := by
  induction ops generalizing sg with
  | nil => exact H
  | cons op rest ih => exact ih (step cap sg op) (memInv_step cap sg.1 sg.2 op H)

theorem memInv_init (cap : Nat) :
    MemInv cap (NodePool.initState cap) ⟨[], []⟩ := by
  have hinit : NodePool.initState cap =
      ⟨[0], NodePool.publishSlots cap 0 [], 1⟩ := rfl
  rw [hinit]
  refine ⟨?_, by simp, by simp, ?_⟩
  · intro p hp
    rcases (mem_publishSlots cap 0 [] p).mp hp with ⟨h1, h2⟩ | h
    · exact ⟨by simp [h1], h2⟩
    · simp at h
  · intro sid hsid
    rcases List.mem_cons.mp hsid with rfl | hs'
    · exact Nat.lt_succ_self _
    · simp at hs'

theorem uniqInv_step (cap : Nat) (s : PoolState) (g : Ghost) (op : Op)
    (Hmem : MemInv cap s g) (Huniq : UniqInv s g)
    (hv : ∀ sid idx, op = .dealloc (.slot sid idx) → (sid, idx) ∈ g.loaned) :
    UniqInv (step cap (s, g) op).1 (step cap (s, g) op).2 := by
  obtain ⟨Hnodup, Hlnodup, Hdisj⟩ := Huniq
  cases op with
  | alloc oom =>
      cases hf : s.free_head with
      | cons h t =>
          rw [step_alloc_some cap oom (s, g) h { s with free_head := t }
            (allocate_pop cap oom s h t hf)]
          have hct : (h :: t).Nodup := by rw [← hf]; exact Hnodup
          have hmemh : h ∈ s.free_head := by
            rw [hf]; exact List.mem_cons_self h t
          obtain ⟨hht, htnodup⟩ := List.nodup_cons.mp hct
          refine ⟨htnodup, List.nodup_cons.mpr ⟨Hdisj h hmemh, Hlnodup⟩, ?_⟩
          intro p hp hmem
          rcases List.mem_cons.mp hmem with rfl | hmem'
          · exact hht hp
          · refine Hdisj p ?_ hmem'
            rw [hf]; exact List.mem_cons_of_mem h hp
      | nil =>
          cases oom with
          | true =>
              rw [step_alloc_none cap true (s, g) s (allocate_empty_oom cap s hf)]
              exact ⟨Hnodup, Hlnodup, Hdisj⟩
          | false =>
              cases cap with
              | zero =>
                  rw [step_alloc_none 0 false (s, g) _
                    (allocate_empty_grow_cap_zero s hf)]
                  exact ⟨List.nodup_nil, Hlnodup, by simp⟩
              | succ k =>
                  rw [step_alloc_some (k + 1) false (s, g) (s.nextSlabId, k) _
                    (allocate_empty_grow k s hf)]
                  have hfresh : ∀ i, (s.nextSlabId, i) ∉ g.loaned := by
                    intro i hmem
                    have h1 := (Hmem.loaned_in_slabs _ hmem).1
                    exact absurd (Hmem.ids_lt _ h1) (lt_irrefl _)
                  refine ⟨?_, List.nodup_cons.mpr ⟨hfresh k, Hlnodup⟩, ?_⟩
                  · exact List.Nodup.map
                      (fun a b h => by simpa using congrArg Prod.snd h)
                      (List.nodup_reverse.mpr (List.nodup_range k))
                  · intro p hp hmem
                    simp only [List.mem_map, List.mem_reverse, List.mem_range] at hp
                    obtain ⟨i, hi, rfl⟩ := hp
                    rcases List.mem_cons.mp hmem with heq | hmem'
                    · have hik : i = k := congrArg Prod.snd heq
                      exact absurd (hik ▸ hi) (lt_irrefl k)
                    · exact hfresh i hmem'
  | dealloc p =>
      cases p with
      | foreign a =>
          rw [step_dealloc_foreign]
          exact ⟨Hnodup, Hlnodup, Hdisj⟩
      | slot sid idx =>
          have hl : (sid, idx) ∈ g.loaned := hv sid idx rfl
          have hin : NodePool.is_in_pool cap s (.slot sid idx) = true := by
            rw [is_in_pool_slot_iff]
            exact Hmem.loaned_in_slabs (sid, idx) hl
          rw [step_dealloc_slot_true cap (s, g) sid idx _
            (deallocate_in_pool cap s sid idx hin)]
          have hnotfree : (sid, idx) ∉ s.free_head := fun hmem => Hdisj _ hmem hl
          refine ⟨List.nodup_cons.mpr ⟨hnotfree, Hnodup⟩, Hlnodup.erase _, ?_⟩
          intro p hp hmem
          rcases List.mem_cons.mp hp with rfl | hp'
          · exact ((Hlnodup.mem_erase_iff).mp hmem).1 rfl
          · exact Hdisj p hp' (List.mem_of_mem_erase hmem)

theorem uniqInv_runOps_from (cap : Nat) (ops : List Op) (sg : PoolState × Ghost)
    (Hmem : MemInv cap sg.1 sg.2) (Huniq : UniqInv sg.1 sg.2)
    (hv : validOps cap sg ops = true) :
    UniqInv (ops.foldl (step cap) sg).1 (ops.foldl (step cap) sg).2 := by
  induction ops generalizing sg with
  | nil => exact Huniq
  | cons op rest ih =>
      simp only [validOps, Bool.and_eq_true] at hv
      obtain ⟨hv1, hv2⟩ := hv
      refine ih (step cap sg op) (memInv_step cap sg.1 sg.2 op Hmem)
        (uniqInv_step cap sg.1 sg.2 op Hmem Huniq ?_) hv2
      intro sid idx heq
      subst heq
      exact of_decide_eq_true hv1

theorem uniqInv_init (cap : Nat) :
    UniqInv (NodePool.initState cap) ⟨[], []⟩ :=
  ⟨nodup_publishSlots_nil cap 0, List.nodup_nil, by simp⟩

/-! ## Claim theorems: the pool invariants -/

/-- C2: after any sequence of `allocate` / `deallocate` operations on the
pool, every non-null address ever returned by `allocate` lies inside some
slab currently reachable from the pool's slab head. -/
theorem allocate_returns_in_slabs (cap : Nat) (ops : List Op) (p : Slot)
    (hp : p ∈ (runOps cap ops).2.returned) :
    slotInSlabs cap (runOps cap ops).1 p :=
  (memInv_runOps_from cap ops (NodePool.initState cap, ⟨[], []⟩)
    (memInv_init cap)).returned_in_slabs p hp

theorem allocate_returns_in_slabs_witness :
    (0, 1) ∈ (runOps 2 [.alloc false]).2.returned ∧
    slotInSlabs 2 (runOps 2 [.alloc false]).1 (0, 1) :=
  ⟨by decide, allocate_returns_in_slabs 2 [.alloc false] (0, 1) (by decide)⟩

/-- C3: in every state reached by a trace that respects the allocator
contract (every deallocated slab-slot pointer is currently loaned), each
slot appears on the free stack at most once, and no slot is simultaneously
loaned to a caller and on the free stack — the premise of the free stack's
ABA immunity. -/
theorem free_stack_slot_at_most_once (cap : Nat) (ops : List Op)
    (hv : validOps cap (NodePool.initState cap, ⟨[], []⟩) ops = true) :
    (runOps cap ops).1.free_head.Nodup ∧
    ∀ p ∈ (runOps cap ops).1.free_head, p ∉ (runOps cap ops).2.loaned := by
  have H := uniqInv_runOps_from cap ops (NodePool.initState cap, ⟨[], []⟩)
    (memInv_init cap) (uniqInv_init cap) hv
  exact ⟨H.free_nodup, H.free_disjoint_loaned⟩

theorem free_stack_slot_at_most_once_witness :
    validOps 2 (NodePool.initState 2, ⟨[], []⟩)
      [.alloc false, .dealloc (.slot 0 1)] = true ∧
    ((runOps 2 [.alloc false, .dealloc (.slot 0 1)]).1.free_head.Nodup ∧
     ∀ p ∈ (runOps 2 [.alloc false, .dealloc (.slot 0 1)]).1.free_head,
       p ∉ (runOps 2 [.alloc false, .dealloc (.slot 0 1)]).2.loaned) :=
  ⟨by decide,
   free_stack_slot_at_most_once 2 [.alloc false, .dealloc (.slot 0 1)] (by decide)⟩

end Eventpp
